import Mathlib

/-!
# Verification of `fun.go`: `Map`, `Reduce`, `Filter`

Shallow embedding of the three generic slice operations of package `fun`.

* A Go slice is modelled by `Slice`: whether it is `nil`, the `len` elements it
  shows, and its capacity.  The Go builtins the source uses (`make`, `len`,
  index assignment, `append`, `copy`) are modelled next to it.
* The callbacks are arbitrary Go functions, so every operation is embedded once,
  over an arbitrary monad `m` (`MapM`, `ReduceM`, `FilterM`): the loops of the
  source become recursive functions that thread the loop variables.  The pure
  reading (`Map`, `Reduce`, `Filter`) is the instance at `Id`; a callback with
  side effects is the instance at a state monad, a callback that may fail (or is
  nil) the instance at `Except`.
* For the frame property (the input is not written to) the backing arrays are made
  explicit: `Heap`, `SliceH` and the embeddings `MapH`, `ReduceH`, `FilterH` on
  memory, which are proved to compute what the value-level embeddings compute.
-/

namespace Fun

/-! ## Data model: Go slices -/

/-- A Go slice value: `isNil` tells the nil slice from an allocated one, `elems`
are the elements at indices `0 .. len-1`, `cap` is the capacity of the backing
storage. -/
structure Slice (α : Type) where
  isNil : Bool
  elems : List α
  cap : Nat
deriving DecidableEq, Repr

/-- The nil slice: no storage, length 0, capacity 0. -/
def Slice.nil {α : Type} : Slice α := ⟨true, [], 0⟩

/-- A slice literal `[]T{x₀, …}`: allocated, capacity equal to its length. -/
def Slice.lit {α : Type} (xs : List α) : Slice α := ⟨false, xs, xs.length⟩

/-- Go `len(s)`. -/
def Slice.len {α : Type} (s : Slice α) : Nat := s.elems.length

/-- Go `make([]T, n, c)`: a freshly allocated, non-nil slice of `n` zero values
with capacity `c`.  The zero value of `T` is `default`. -/
def Slice.make {α : Type} [Inhabited α] (n c : Nat) : Slice α :=
  ⟨false, List.replicate n default, c⟩

/-- Go `s[i] = v`, for an index in range.  (`Map`, the only user, stores at the
indices of `data` into a slice of the same length: see `MapM_loop_eq`, whose
hypothesis is that the indices fit.) -/
def Slice.set {α : Type} (s : Slice α) (i : Nat) (v : α) : Slice α :=
  { s with elems := s.elems.set i v }

/-- Go `append(s, x)`.  With spare capacity the element is stored in place and the
capacity is kept; otherwise the storage is reallocated, with the capacity the
runtime chooses, `grow oldCap neededLen` (a parameter: the growth policy belongs
to the Go runtime, not to this package). -/
def Slice.append {α : Type} (grow : Nat → Nat → Nat) (s : Slice α) (x : α) : Slice α :=
  if s.len < s.cap then
    ⟨false, s.elems ++ [x], s.cap⟩
  else
    ⟨false, s.elems ++ [x], grow s.cap (s.len + 1)⟩

/-- Go `copy(dst, src)`: overwrites the first `min(len(dst), len(src))` elements
of `dst` with those of `src`; returns `dst` after the copy. -/
def Slice.copy {α : Type} (dst src : Slice α) : Slice α :=
  { dst with
    elems := src.elems.take (min dst.len src.len) ++ dst.elems.drop (min dst.len src.len) }

/-- The slice `res` with the values `vs` stored at the indices `k, k+1, …`: what the
loop of `Map` has made of `res` after storing `vs` from index `k` on (used to state
the loop invariant). -/
def Slice.splice {β : Type} (res : Slice β) (k : Nat) (vs : List β) : Slice β :=
  ⟨res.isNil, res.elems.take k ++ vs ++ res.elems.drop (k + vs.length), res.cap⟩

/-! ## The three operations -/

section Operations

variable {m : Type → Type} [Monad m]

/-- Loop of `Map`: `for i, item := range data { res[i] = fn(item) }`, run over the
remaining `(i, item)` pairs with the current `res`. -/
def MapM.loop {α β : Type} (fn : α → m β) : List (Nat × α) → Slice β → m (Slice β)
  | [], res => pure res
  | (i, item) :: rest, res => do
    let v ← fn item
    MapM.loop fn rest (res.set i v)

/-- Embedding of `Map`:
`res := make([]OUT, len(data)); for i, item := range data { res[i] = fn(item) }; return res`. -/
def MapM {α β : Type} [Inhabited β] (fn : α → m β) (data : Slice α) : m (Slice β) :=
  MapM.loop fn data.elems.enum (Slice.make data.len data.len)

/-- Loop of `Reduce`: `for i := range iterable { init = fn(init, iterable[i]) }`,
run over the remaining indices with the current value of `init`. -/
def ReduceM.loop {A I : Type} (fn : A → I → m A) (iterable : Slice I) :
    List (Fin iterable.len) → A → m A
  | [], init => pure init
  | i :: rest, init => do
    let init ← fn init (iterable.elems.get i)
    ReduceM.loop fn iterable rest init

/-- Embedding of `Reduce`:
`for i := range iterable { init = fn(init, iterable[i]) }; return init`. -/
def ReduceM {A I : Type} (fn : A → I → m A) (iterable : Slice I) (init : A) : m A :=
  ReduceM.loop fn iterable (List.finRange iterable.len) init

/-- Loop of `Filter`:
`for _, item := range iterable { if fn(item) { filtered = append(filtered, item) } }`,
run over the remaining items with the current `filtered`. -/
def FilterM.loop {T : Type} (grow : Nat → Nat → Nat) (fn : T → m Bool) :
    List T → Slice T → m (Slice T)
  | [], filtered => pure filtered
  | item :: rest, filtered => do
    let keep ← fn item
    if keep then
      FilterM.loop grow fn rest (filtered.append grow item)
    else
      FilterM.loop grow fn rest filtered

/-- Embedding of `Filter`:
`filtered := make([]T, 0, len(iterable))`, the loop, then
`adjusted := make([]T, len(filtered)); copy(adjusted, filtered); return adjusted`. -/
def FilterM {T : Type} [Inhabited T] (grow : Nat → Nat → Nat) (fn : T → m Bool)
    (iterable : Slice T) : m (Slice T) := do
  let filtered ← FilterM.loop grow fn iterable.elems (Slice.make 0 iterable.len)
  let adjusted : Slice T := Slice.make filtered.len filtered.len
  pure (adjusted.copy filtered)

end Operations

/-! ## Pure callbacks -/

/-- Pure reading of `Map`: the transform has no effects. -/
def Map {α β : Type} [Inhabited β] (fn : α → β) (data : Slice α) : Slice β :=
  Id.run (MapM (fun x => (pure (fn x) : Id β)) data)

/-- Pure reading of `Reduce`: the accumulator function has no effects. -/
def Reduce {A I : Type} (fn : A → I → A) (iterable : Slice I) (init : A) : A :=
  Id.run (ReduceM (fun acc item => (pure (fn acc item) : Id A)) iterable init)

/-- Pure reading of `Filter`: the predicate has no effects. -/
def Filter {T : Type} [Inhabited T] (grow : Nat → Nat → Nat) (fn : T → Bool)
    (iterable : Slice T) : Slice T :=
  Id.run (FilterM grow (fun item => (pure (fn item) : Id Bool)) iterable)

/-- The working buffer `filtered` of `Filter` as it stands when the loop ends,
before the shrink-to-fit copy. -/
def Filter.buffer {T : Type} [Inhabited T] (grow : Nat → Nat → Nat) (fn : T → Bool)
    (iterable : Slice T) : Slice T :=
  Id.run (FilterM.loop grow (fun item => (pure (fn item) : Id Bool)) iterable.elems
    (Slice.make 0 iterable.len))

/-! ## Callbacks with side effects -/

/-- A callback with side effects on a state `σ`, instrumented with a call log:
every call first appends its argument to the log, then runs the callback. -/
def logged {σ α β : Type} (fn : α → StateM σ β) : α → StateM (List α × σ) β :=
  fun x st =>
    let r := fn x st.2
    (r.1, (st.1 ++ [x], r.2))

/-- The instrumented form of a two-argument callback: the log records the element
argument of each call. -/
def logged₂ {σ A I : Type} (fn : A → I → StateM σ A) : A → I → StateM (List I × σ) A :=
  fun acc x st =>
    let r := fn acc x st.2
    (r.1, (st.1 ++ [x], r.2))

/-! ## Callbacks that fail -/

/-- Example of a failing transform: doubles the elements below 3 and fails on every
other element, with the element as the error. -/
def failFrom3 (n : Int) : Except Int Int :=
  if n < 3 then .ok (n * 2) else .error n

/-- Example of a failing predicate: tests evenness of the elements below 3 and fails
on every other element, with the element as the error. -/
def evenFailFrom3 (n : Int) : Except Int Bool :=
  if n < 3 then .ok (n % 2 == 0) else .error n

/-- Example of a failing accumulator function: adds the elements below 3 and fails on
every other element, with the element as the error. -/
def addFailFrom3 (acc n : Int) : Except Int Int :=
  if n < 3 then .ok (acc + n) else .error n

/-! ## Absent callbacks -/

/-- The run-time panics of Go this development meets. -/
inductive Panic where
  /-- Calling a nil function value: "invalid memory address or nil pointer dereference". -/
  | nilDereference
deriving DecidableEq, Repr

/-- Go call `fn(x)` of a function value that may be nil (`none`): calling nil panics,
calling a function returns its value.  The source calls its callback without any
check, so this is what each `fn(item)` of the source does. -/
def callFunc {α β : Type} (fn : Option (α → β)) (x : α) : Except Panic β :=
  match fn with
  | none => .error .nilDereference
  | some f => .ok (f x)

/-- Go call `fn(acc, item)` of a two-argument function value that may be nil. -/
def callFunc₂ {A I : Type} (fn : Option (A → I → A)) (acc : A) (item : I) : Except Panic A :=
  match fn with
  | none => .error .nilDereference
  | some f => .ok (f acc item)

/-! ## Memory model: slices as views of backing arrays

The definitions above treat a slice as the value it shows.  To say that an operation
does not write to its input, the backing arrays are made explicit: memory is the
list of arrays allocated so far, a slice header points into one of them, and the
operations are embedded a second time as functions on memory, statement by
statement.  A callback is a function that may itself read and write memory. -/

/-- Memory: the backing arrays allocated so far; the address of an array is its
position in the list. -/
abbrev Heap (V : Type) := List (List V)

/-- A Go slice header: nil flag, address of the backing array, offset of the first
element in it, length and capacity. -/
structure SliceH where
  isNil : Bool
  arr : Nat
  off : Nat
  len : Nat
  cap : Nat
deriving DecidableEq, Repr

/-- The backing array at address `a` (empty when nothing is allocated there). -/
def Heap.array {V : Type} (h : Heap V) (a : Nat) : List V := h.getD a []

/-- The elements a slice shows: `len` elements of its backing array from `off` on. -/
def Heap.view {V : Type} (h : Heap V) (s : SliceH) : List V :=
  ((h.array s.arr).drop s.off).take s.len

/-- Go `s[i]` (read). -/
def Heap.load {V : Type} [Inhabited V] (h : Heap V) (s : SliceH) (i : Nat) : V :=
  (h.array s.arr).getD (s.off + i) default

/-- Go `s[i] = v`: writes cell `off + i` of the backing array of `s`. -/
def Heap.store {V : Type} (h : Heap V) (s : SliceH) (i : Nat) (v : V) : Heap V :=
  h.set s.arr ((h.array s.arr).set (s.off + i) v)

/-- Go `make([]T, n, c)` on memory: allocates a new backing array of `c` zero values
at the next free address and returns a header of length `n` on it. -/
def Heap.make {V : Type} [Inhabited V] (h : Heap V) (n c : Nat) : SliceH × Heap V :=
  (⟨false, h.length, 0, n, c⟩, h ++ [List.replicate c default])

/-- Go `append(s, x)` on memory.  With spare capacity, `x` is written into the backing
array of `s` right after its last element; otherwise a new array of the capacity the
runtime chooses is allocated, the elements of `s` and `x` are copied to it. -/
def Heap.append {V : Type} [Inhabited V] (grow : Nat → Nat → Nat) (h : Heap V) (s : SliceH)
    (x : V) : SliceH × Heap V :=
  if s.len < s.cap then
    (⟨false, s.arr, s.off, s.len + 1, s.cap⟩, h.store s s.len x)
  else
    (⟨false, h.length, 0, s.len + 1, grow s.cap (s.len + 1)⟩,
      h ++ [h.view s ++ [x] ++ List.replicate (grow s.cap (s.len + 1) - (s.len + 1)) default])

/-- Go `copy(dst, src)` on memory: writes the first `min(len(dst), len(src))` elements
of `src` over the first cells of `dst`, in the backing array of `dst`. -/
def Heap.copy {V : Type} (h : Heap V) (dst src : SliceH) : Heap V :=
  h.set dst.arr
    ((h.array dst.arr).take dst.off ++ (h.view src).take (min dst.len src.len)
      ++ (h.array dst.arr).drop (dst.off + min dst.len src.len))

/-- Loop of `Map` on memory, over the remaining indices `i`: `item` is read from the
input, the callback runs (on memory), its value is written to `res[i]`. -/
def MapH.loop {V : Type} [Inhabited V] (fn : V → Heap V → V × Heap V) (data res : SliceH) :
    List Nat → Heap V → Heap V
  | [], h => h
  | i :: rest, h =>
    let r := fn (h.load data i) h
    MapH.loop fn data res rest (r.2.store res i r.1)

/-- Embedding of `Map` on memory: returns the header of `res` and the memory after
the call. -/
def MapH {V : Type} [Inhabited V] (fn : V → Heap V → V × Heap V) (data : SliceH)
    (h : Heap V) : SliceH × Heap V :=
  let res := h.make data.len data.len
  (res.1, MapH.loop fn data res.1 (List.range data.len) res.2)

/-- Loop of `Reduce` on memory, over the remaining indices. -/
def ReduceH.loop {V A : Type} [Inhabited V] (fn : A → V → Heap V → A × Heap V)
    (iterable : SliceH) : List Nat → A → Heap V → A × Heap V
  | [], init, h => (init, h)
  | i :: rest, init, h =>
    let r := fn init (h.load iterable i) h
    ReduceH.loop fn iterable rest r.1 r.2

/-- Embedding of `Reduce` on memory: returns the value and the memory after the call. -/
def ReduceH {V A : Type} [Inhabited V] (fn : A → V → Heap V → A × Heap V)
    (iterable : SliceH) (init : A) (h : Heap V) : A × Heap V :=
  ReduceH.loop fn iterable (List.range iterable.len) init h

/-- Loop of `Filter` on memory, over the remaining indices, with the current header
`filtered`. -/
def FilterH.loop {V : Type} [Inhabited V] (grow : Nat → Nat → Nat)
    (fn : V → Heap V → Bool × Heap V) (iterable : SliceH) :
    List Nat → SliceH → Heap V → SliceH × Heap V
  | [], filtered, h => (filtered, h)
  | i :: rest, filtered, h =>
    let item := h.load iterable i
    let r := fn item h
    if r.1 then
      let a := r.2.append grow filtered item
      FilterH.loop grow fn iterable rest a.1 a.2
    else
      FilterH.loop grow fn iterable rest filtered r.2

/-- Embedding of `Filter` on memory: returns the header of `adjusted` and the memory
after the call. -/
def FilterH {V : Type} [Inhabited V] (grow : Nat → Nat → Nat)
    (fn : V → Heap V → Bool × Heap V) (iterable : SliceH) (h : Heap V) : SliceH × Heap V :=
  let buf := h.make 0 iterable.len
  let l := FilterH.loop grow fn iterable (List.range iterable.len) buf.1 buf.2
  let adjusted := l.2.make l.1.len l.1.len
  (adjusted.1, adjusted.2.copy adjusted.1 l.1)

/-! ## Auxiliary lemmas

### Map -/

theorem take_set_splice {β : Type} (xs : List β) (k : Nat) (v : β) (vs : List β)
    (hk : k < xs.length) :
    (xs.set k v).take (k + 1) ++ vs ++ (xs.set k v).drop (k + 1 + vs.length)
      = xs.take k ++ (v :: vs) ++ xs.drop (k + (vs.length + 1)) := by
  induction xs generalizing k with
  | nil => simp at hk
  | cons x xs ih =>
    cases k with
    | zero => simp [Nat.add_comm]
    | succ k =>
      have := ih k (by simpa using hk)
      simp only [List.set_cons_succ, List.take_succ_cons, List.cons_append]
      have e1 : k + 1 + 1 + vs.length = (k + 1 + vs.length) + 1 := by omega
      have e2 : k + 1 + (vs.length + 1) = (k + (vs.length + 1)) + 1 := by omega
      rw [e1, e2, List.drop_succ_cons, List.drop_succ_cons]
      simpa using this

theorem MapM_loop_eq {m : Type → Type} [Monad m] [LawfulMonad m] {α β : Type} (fn : α → m β)
    (l : List α) (k : Nat) (res : Slice β) (h : k + l.length ≤ res.len) :
    MapM.loop fn (l.enumFrom k) res = (fun vs => res.splice k vs) <$> l.mapM' fn := by
  induction l generalizing k res with
  | nil =>
    simp [MapM.loop, Slice.splice, Slice.len] at h ⊢
  | cons a l ih =>
    simp only [List.enumFrom_cons, MapM.loop, List.mapM'_cons, map_bind, bind_pure_comp, Functor.map_map]
    congr 1
    funext v
    have hk : k < res.elems.length := by simp [Slice.len] at h; omega
    rw [ih (k + 1) (res.set k v) (by simp [Slice.len, Slice.set] at h ⊢; omega)]
    congr 1
    funext vs
    simp only [Slice.splice, Slice.set, Slice.mk.injEq, true_and, and_true]
    exact take_set_splice res.elems k v vs hk

theorem MapM_eq {m : Type → Type} [Monad m] [LawfulMonad m] {α β : Type} [Inhabited β] (fn : α → m β)
    (data : Slice α) :
    MapM fn data = (fun vs => (Slice.make data.len data.len).splice 0 vs) <$> data.elems.mapM' fn := by
  unfold MapM
  rw [List.enum, MapM_loop_eq]
  simp [Slice.len, Slice.make]

theorem Map_eq {α β : Type} [Inhabited β] (fn : α → β)
    (data : Slice α) : Map fn data = ⟨false, data.elems.map fn, data.len⟩ := by
  have hid : ∀ l : List α, List.mapM' (fun x => (pure (fn x) : Id β)) l = l.map fn := by
    intro l
    induction l with
    | nil => rfl
    | cons a l ih => rw [List.mapM'_cons, ih]; rfl
  unfold Map
  rw [MapM_eq, hid]
  simp [Slice.splice, Slice.make, Slice.len]
  rfl
 
/-! ### Reduce -/

theorem ReduceM_loop_eq {m : Type → Type} [Monad m] {A I : Type} (fn : A → I → m A)
    (iterable : Slice I) (is : List (Fin iterable.len)) (init : A) :
    ReduceM.loop fn iterable is init = (is.map iterable.elems.get).foldlM fn init := by
  induction is generalizing init with
  | nil => rfl
  | cons i rest ih =>
    simp only [ReduceM.loop, List.map_cons, List.foldlM_cons]
    congr 1
    funext acc
    exact ih acc

theorem ReduceM_eq {m : Type → Type} [Monad m] {A I : Type} (fn : A → I → m A)
    (iterable : Slice I) (init : A) :
    ReduceM fn iterable init = iterable.elems.foldlM fn init := by
  unfold ReduceM
  rw [ReduceM_loop_eq]
  unfold Slice.len
  rw [List.finRange_map_get]

theorem Reduce_eq_foldl {A I : Type} (fn : A → I → A) (iterable : Slice I) (init : A) :
    Reduce fn iterable init = iterable.elems.foldl fn init := by
  unfold Reduce
  rw [ReduceM_eq]
  generalize iterable.elems = l
  induction l generalizing init with
  | nil => rfl
  | cons a l ih => exact ih (fn init a)

/-! ### Filter -/

theorem FilterM_loop_id {T : Type} (grow : Nat → Nat → Nat) (fn : T → Bool) (l : List T)
    (filtered : Slice T) :
    Id.run (FilterM.loop grow (fun item => (pure (fn item) : Id Bool)) l filtered)
      = (l.filter fn).foldl (Slice.append grow) filtered := by
  induction l generalizing filtered with
  | nil => rfl
  | cons a l ih =>
    cases h : fn a with
    | true =>
      simp only [List.filter_cons, h, if_true, List.foldl_cons]
      rw [← ih]
      simp [FilterM.loop, h]
    | false =>
      simp only [List.filter_cons, h, Bool.false_eq_true, if_false]
      rw [← ih]
      simp [FilterM.loop, h]

theorem foldl_append_elems {T : Type} (grow : Nat → Nat → Nat) (xs : List T) (s : Slice T) :
    (xs.foldl (Slice.append grow) s).elems = s.elems ++ xs := by
  induction xs generalizing s with
  | nil => simp
  | cons x xs ih =>
    rw [List.foldl_cons, ih]
    unfold Slice.append
    split <;> simp

theorem foldl_append_fits {T : Type} (grow : Nat → Nat → Nat) (xs : List T) (s : Slice T)
    (hnil : s.isNil = false) (hfit : s.len + xs.length ≤ s.cap) :
    xs.foldl (Slice.append grow) s = ⟨false, s.elems ++ xs, s.cap⟩ := by
  induction xs generalizing s with
  | nil =>
    cases s
    simp_all
  | cons x xs ih =>
    have hlt : s.len < s.cap := by simp at hfit; omega
    have happ : s.append grow x = ⟨false, s.elems ++ [x], s.cap⟩ := by
      simp [Slice.append, hlt]
    rw [List.foldl_cons, happ, ih]
    · simp
    · rfl
    · simp [Slice.len] at hfit ⊢
      omega

theorem Filter_buffer_eq {T : Type} [Inhabited T] (grow : Nat → Nat → Nat) (fn : T → Bool)
    (iterable : Slice T) :
    Filter.buffer grow fn iterable = ⟨false, iterable.elems.filter fn, iterable.len⟩ := by
  unfold Filter.buffer
  rw [FilterM_loop_id, foldl_append_fits]
  · simp [Slice.make]
  · rfl
  · simp only [Slice.make, Slice.len, List.length_replicate, Nat.zero_add]
    exact List.length_filter_le _ _

theorem Filter_eq {T : Type} [Inhabited T] (grow : Nat → Nat → Nat) (fn : T → Bool)
    (iterable : Slice T) :
    Filter grow fn iterable
      = ⟨false, iterable.elems.filter fn, (iterable.elems.filter fn).length⟩ := by
  have h : Filter grow fn iterable
      = (Slice.make (Filter.buffer grow fn iterable).len (Filter.buffer grow fn iterable).len).copy
          (Filter.buffer grow fn iterable) := rfl
  rw [h, Filter_buffer_eq]
  simp [Slice.copy, Slice.make, Slice.len]

/-! ### Call logs -/

theorem mapM'_logged {σ α β : Type} (fn : α → StateM σ β) (l : List α) (log : List α)
    (s : σ) :
    (l.mapM' (logged fn)).run (log, s)
      = (((l.mapM' fn).run s).1, (log ++ l, ((l.mapM' fn).run s).2)) := by
  induction l generalizing log s with
  | nil => simp [List.mapM'_nil, StateT.run, pure, StateT.pure]
  | cons a l ih =>
    have hl : (List.mapM' (logged fn) (a :: l)).run (log, s)
        = ((fn a s).1 :: ((l.mapM' (logged fn)).run (log ++ [a], (fn a s).2)).1,
            ((l.mapM' (logged fn)).run (log ++ [a], (fn a s).2)).2) := rfl
    have hr : (List.mapM' fn (a :: l)).run s
        = ((fn a s).1 :: ((l.mapM' fn).run (fn a s).2).1, ((l.mapM' fn).run (fn a s).2).2) := rfl
    rw [hl, hr, ih]
    simp

theorem MapM_logged {σ α β : Type} [Inhabited β] (fn : α → StateM σ β) (data : Slice α)
    (log : List α) (s : σ) :
    (MapM (logged fn) data).run (log, s)
      = (((MapM fn data).run s).1, (log ++ data.elems, ((MapM fn data).run s).2)) := by
  rw [MapM_eq, MapM_eq]
  have hmap : ∀ {τ γ δ : Type} (g : γ → δ) (x : StateM τ γ) (t : τ),
      (g <$> x).run t = (g (x.run t).1, (x.run t).2) := fun _ _ _ => rfl
  rw [hmap, hmap, mapM'_logged]

theorem FilterM_loop_logged {σ T : Type} (grow : Nat → Nat → Nat) (fn : T → StateM σ Bool)
    (l : List T) (filtered : Slice T) (log : List T) (s : σ) :
    (FilterM.loop grow (logged fn) l filtered).run (log, s)
      = (((FilterM.loop grow fn l filtered).run s).1,
          (log ++ l, ((FilterM.loop grow fn l filtered).run s).2)) := by
  induction l generalizing filtered log s with
  | nil => simp [FilterM.loop, StateT.run, pure, StateT.pure]
  | cons a l ih =>
    cases h : (fn a s).1 with
    | true =>
      have hl : (FilterM.loop grow (logged fn) (a :: l) filtered).run (log, s)
          = (FilterM.loop grow (logged fn) l (filtered.append grow a)).run
              (log ++ [a], (fn a s).2) := by
        simp [FilterM.loop, StateT.run, bind, StateT.bind, logged, h]
      have hr : (FilterM.loop grow fn (a :: l) filtered).run s
          = (FilterM.loop grow fn l (filtered.append grow a)).run (fn a s).2 := by
        simp only [FilterM.loop, StateT.run, bind, StateT.bind]
        rcases hfa : fn a s with ⟨b, t⟩
        rw [hfa] at h
        simp only at h
        subst h
        simp
      rw [hl, hr, ih]
      simp
    | false =>
      have hl : (FilterM.loop grow (logged fn) (a :: l) filtered).run (log, s)
          = (FilterM.loop grow (logged fn) l filtered).run (log ++ [a], (fn a s).2) := by
        simp [FilterM.loop, StateT.run, bind, StateT.bind, logged, h]
      have hr : (FilterM.loop grow fn (a :: l) filtered).run s
          = (FilterM.loop grow fn l filtered).run (fn a s).2 := by
        simp only [FilterM.loop, StateT.run, bind, StateT.bind]
        rcases hfa : fn a s with ⟨b, t⟩
        rw [hfa] at h
        simp only at h
        subst h
        simp
      rw [hl, hr, ih]
      simp

theorem FilterM_logged {σ T : Type} [Inhabited T] (grow : Nat → Nat → Nat)
    (fn : T → StateM σ Bool) (iterable : Slice T) (log : List T) (s : σ) :
    (FilterM grow (logged fn) iterable).run (log, s)
      = (((FilterM grow fn iterable).run s).1,
          (log ++ iterable.elems, ((FilterM grow fn iterable).run s).2)) := by
  have hbind : ∀ {τ : Type} (x : StateM τ (Slice T)) (t : τ),
      (do
        let filtered ← x
        let adjusted : Slice T := Slice.make filtered.len filtered.len
        pure (adjusted.copy filtered) : StateM τ (Slice T)).run t
        = ((Slice.make (x.run t).1.len (x.run t).1.len).copy (x.run t).1, (x.run t).2) :=
    fun _ _ => rfl
  unfold FilterM
  rw [hbind, hbind, FilterM_loop_logged]

/-! ## The claims -/

/-- C1: for every transform `fn` and input slice `data`, `Map(fn, data)` has exactly
`len(data)` elements, and its element at every index `i < len(data)` is `fn(data[i])`;
as a whole, the result lists the images of the input in the input's order. -/
theorem Map_length_and_elements {α β : Type} [Inhabited β] (fn : α → β) (data : Slice α) :
    (Map fn data).len = data.len ∧
    (∀ i : Fin data.len, (Map fn data).elems[i.val]? = some (fn (data.elems.get i))) ∧
    (Map fn data).elems = data.elems.map fn := by
  rw [Map_eq]
  refine ⟨by simp [Slice.len], ?_, rfl⟩
  intro i
  simp [Slice.len]

/-- C1, concrete scenario: `Map(n -> float(n), [1,2,3,4]) = [1.0,2.0,3.0,4.0]`.  The
`float64` values are written as the rationals they denote (the conversion of these
integers is exact). -/
theorem Map_float_witness :
    (Map (fun n : Int => (n : ℚ)) (Slice.lit [1, 2, 3, 4])).len = 4 ∧
    (Map (fun n : Int => (n : ℚ)) (Slice.lit [1, 2, 3, 4])).elems = [1, 2, 3, 4] := by
  have h := Map_length_and_elements (fun n : Int => (n : ℚ)) (Slice.lit [1, 2, 3, 4])
  refine ⟨h.1, ?_⟩
  rw [h.2.2]
  simp [Slice.lit]

/-- C2: `Reduce(fn, iterable, init)` is the strict left fold: for the sequence
`acc_0 = init`, `acc_k = fn(acc_(k-1), iterable[k-1])` (`k = 1..N`) it returns `acc_N`,
whatever `fn` is (no commutativity or associativity is used); it is the left fold of
the element list, and on three elements it is `fn(fn(fn(init,a),b),c)`. -/
theorem Reduce_is_strict_left_fold {A I : Type} (fn : A → I → A) (iterable : Slice I)
    (init : A) (acc : Nat → A) (h0 : acc 0 = init)
    (hstep : ∀ k : Fin iterable.len, acc (k.val + 1) = fn (acc k.val) (iterable.elems.get k)) :
    Reduce fn iterable init = acc iterable.len ∧
    Reduce fn iterable init = iterable.elems.foldl fn init ∧
    (∀ a b c : I, Reduce fn (Slice.lit [a, b, c]) init = fn (fn (fn init a) b) c) := by
  refine ⟨?_, Reduce_eq_foldl fn iterable init, fun a b c => by rw [Reduce_eq_foldl]; rfl⟩
  rw [Reduce_eq_foldl]
  have key : ∀ n (hn : n ≤ iterable.elems.length),
      (iterable.elems.take n).foldl fn init = acc n := by
    intro n
    induction n with
    | zero => intro _; simpa using h0.symm
    | succ n ih =>
      intro hn
      have hlt : n < iterable.elems.length := hn
      rw [List.take_succ, List.foldl_append, ih (Nat.le_of_lt hlt),
        List.getElem?_eq_getElem hlt]
      exact (hstep ⟨n, hlt⟩).symm
  have := key iterable.elems.length (Nat.le_refl _)
  rwa [List.take_length] at this

/-- C2, concrete scenario: `Reduce((acc,item) -> acc + item*item, [1,2,3,4], 1) = 31`,
through the accumulator sequence `1, 2, 6, 15, 31`. -/
theorem Reduce_sum_squares_witness :
    Reduce (fun (acc item : Int) => acc + item * item) (Slice.lit [1, 2, 3, 4]) 1 = 31 :=
  (Reduce_is_strict_left_fold (fun (acc item : Int) => acc + item * item)
    (Slice.lit [1, 2, 3, 4]) 1 (fun k => [1, 2, 6, 15, 31].getD k 0) rfl (by decide)).1

/-- C3: for every predicate `fn` and input slice, `Filter(fn, iterable)` is the input
with every element failing the predicate deleted and nothing else: it lists the
matching elements in their original order without gaps, its members are exactly the
input's members that satisfy `fn`, and each matching occurrence is kept once (for any
property `q`, as many result elements have `q` as matching input elements do). -/
theorem Filter_keeps_exactly_the_matching {T : Type} [Inhabited T] (grow : Nat → Nat → Nat)
    (fn : T → Bool) (iterable : Slice T) :
    (Filter grow fn iterable).elems = iterable.elems.filter fn ∧
    (∀ x : T, x ∈ (Filter grow fn iterable).elems ↔ (x ∈ iterable.elems ∧ fn x = true)) ∧
    (∀ q : T → Bool, (Filter grow fn iterable).elems.countP q
      = iterable.elems.countP (fun x => q x && fn x)) := by
  rw [Filter_eq]
  refine ⟨rfl, fun x => by simp, fun q => ?_⟩
  simp only [List.countP_filter]

/-- C3, concrete scenario: `Filter(n -> n % 2 == 0, [1,2,3,4,5,6]) = [2,4,6]`. -/
theorem Filter_even_witness :
    (Filter (fun _ n => n) (fun n : Int => n % 2 == 0) (Slice.lit [1, 2, 3, 4, 5, 6])).elems
      = [2, 4, 6] := by
  rw [(Filter_keeps_exactly_the_matching (fun _ n => n) (fun n : Int => n % 2 == 0)
    (Slice.lit [1, 2, 3, 4, 5, 6])).1]
  decide

/-- C4: for every predicate `p` and input slice `S`, every element of `Filter(p, S)`
satisfies `p`, `Filter(p, S)` is a subsequence of `S` in the same relative order, and
`len(Filter(p, S)) <= len(S)`. -/
theorem Filter_sound_subsequence_shorter {T : Type} [Inhabited T] (grow : Nat → Nat → Nat)
    (p : T → Bool) (S : Slice T) :
    (∀ x ∈ (Filter grow p S).elems, p x = true) ∧
    (Filter grow p S).elems.Sublist S.elems ∧
    (Filter grow p S).len ≤ S.len := by
  rw [Filter_eq]
  refine ⟨fun x hx => ?_, List.filter_sublist S.elems, List.length_filter_le p S.elems⟩
  exact (List.mem_filter.mp hx).2

/-- C4 at `Filter(n -> n % 2 == 0, [1,2,3,4,5,6])`: every element kept is even, the
result is a subsequence of the input, and it has at most 6 elements. -/
theorem Filter_sound_subsequence_shorter_witness :
    (∀ x ∈ (Filter (fun _ n => n) (fun n : Int => n % 2 == 0)
        (Slice.lit [1, 2, 3, 4, 5, 6])).elems, (x % 2 == 0) = true) ∧
    (Filter (fun _ n => n) (fun n : Int => n % 2 == 0)
        (Slice.lit [1, 2, 3, 4, 5, 6])).elems.Sublist [1, 2, 3, 4, 5, 6] ∧
    (Filter (fun _ n => n) (fun n : Int => n % 2 == 0)
        (Slice.lit [1, 2, 3, 4, 5, 6])).len ≤ 6 :=
  Filter_sound_subsequence_shorter (fun _ n => n) (fun n : Int => n % 2 == 0)
    (Slice.lit [1, 2, 3, 4, 5, 6])

/-- C5: on an input of length 0 (the empty slice or the nil slice) `Reduce` returns
`init` unchanged and never invokes `fn`: whatever effects `fn` has (in any monad), the
call is the effect-free computation returning `init`; in particular a call log kept
by `fn` is left as it was, and the pure reading returns `init`. -/
theorem Reduce_empty_returns_init {m : Type → Type} [Monad m] {A I : Type}
    (fn : A → I → m A) (f : A → I → A) (iterable : Slice I) (init : A)
    (h : iterable.len = 0) :
    ReduceM fn iterable init = pure init ∧
    (∀ (σ : Type) (g : A → I → StateM σ A) (st : List I × σ),
      (ReduceM (logged₂ g) iterable init).run st = (init, st)) ∧
    Reduce f iterable init = init := by
  have hnil : List.finRange iterable.len = [] := List.finRange_eq_nil.mpr h
  have hgen : ∀ (n : Type → Type) [Monad n] (k : A → I → n A),
      ReduceM k iterable init = pure init := by
    intro n _ k
    unfold ReduceM
    rw [hnil]
    rfl
  refine ⟨hgen m fn, fun σ g st => ?_, ?_⟩
  · rw [hgen]
    rfl
  · unfold Reduce
    rw [hgen]
    rfl

/-- C5 at the nil slice and at the empty slice literal, with an accumulator that logs
its calls: the result is the initial value `7` and the log stays empty. -/
theorem Reduce_empty_witness :
    ((Slice.nil : Slice Int).len = 0 ∧
      Reduce (fun (acc item : Int) => acc + item) Slice.nil 7 = 7) ∧
    ((Slice.lit [] : Slice Int).len = 0 ∧
      (ReduceM (logged₂ (fun (acc item : Int) => (pure (acc + item) : StateM Unit Int)))
        (Slice.lit []) 7).run ([], ()) = (7, ([], ()))) :=
  ⟨⟨rfl, (Reduce_empty_returns_init
      (fun (acc item : Int) => (pure (acc + item) : Id Int))
      (fun (acc item : Int) => acc + item) Slice.nil 7 rfl).2.2⟩,
   ⟨rfl, (Reduce_empty_returns_init
      (fun (acc item : Int) => (pure (acc + item) : Id Int))
      (fun (acc item : Int) => acc + item) (Slice.lit []) 7 rfl).2.1 Unit _ ([], ())⟩⟩

/-- C6: on an input of length 0 (the empty slice or the nil slice) `Map` returns an
empty slice that is present: non-nil, of length 0 (and capacity 0); this also holds
for a transform with effects, which is then not run at all. -/
theorem Map_empty_is_non_nil_empty {m : Type → Type} [Monad m] {α β : Type} [Inhabited β]
    (fn : α → m β) (f : α → β) (data : Slice α) (h : data.len = 0) :
    (Map f data).isNil = false ∧ (Map f data).len = 0 ∧ (Map f data).cap = 0 ∧
    MapM fn data = pure ⟨false, [], 0⟩ := by
  have hel : data.elems = [] := List.length_eq_zero.mp h
  refine ⟨?_, ?_, ?_, ?_⟩
  · rw [Map_eq]
  · rw [Map_eq, hel]
    rfl
  · rw [Map_eq]
    exact h
  · unfold MapM
    rw [h, hel]
    rfl

/-- C6 at the nil slice and at the empty slice literal: `Map(n -> n + 1, ·)` is the
allocated empty slice, not nil. -/
theorem Map_empty_witness :
    ((Slice.nil : Slice Int).len = 0 ∧
      (Map (fun n : Int => n + 1) Slice.nil).isNil = false ∧
      (Map (fun n : Int => n + 1) Slice.nil).len = 0) ∧
    ((Slice.lit [] : Slice Int).len = 0 ∧
      (Map (fun n : Int => n + 1) (Slice.lit [])).isNil = false ∧
      (Map (fun n : Int => n + 1) (Slice.lit [])).len = 0) :=
  ⟨⟨rfl,
    (Map_empty_is_non_nil_empty (fun n : Int => (pure (n + 1) : Id Int))
      (fun n : Int => n + 1) Slice.nil rfl).1,
    (Map_empty_is_non_nil_empty (fun n : Int => (pure (n + 1) : Id Int))
      (fun n : Int => n + 1) Slice.nil rfl).2.1⟩,
   ⟨rfl,
    (Map_empty_is_non_nil_empty (fun n : Int => (pure (n + 1) : Id Int))
      (fun n : Int => n + 1) (Slice.lit []) rfl).1,
    (Map_empty_is_non_nil_empty (fun n : Int => (pure (n + 1) : Id Int))
      (fun n : Int => n + 1) (Slice.lit []) rfl).2.1⟩⟩

/-- C7: when no element of the input satisfies the predicate (so also on the empty
and the nil slice, and for the always-false predicate), `Filter` returns an empty
slice that is present: non-nil, of length 0. -/
theorem Filter_no_match_is_non_nil_empty {T : Type} [Inhabited T] (grow : Nat → Nat → Nat)
    (p : T → Bool) (S : Slice T) (hnone : ∀ x ∈ S.elems, p x = false) :
    (Filter grow p S).isNil = false ∧ (Filter grow p S).len = 0 ∧
    (Filter grow p S).elems = [] := by
  have hf : S.elems.filter p = [] := by
    rw [List.filter_eq_nil_iff]
    intro x hx
    simp [hnone x hx]
  rw [Filter_eq, hf]
  exact ⟨rfl, rfl, rfl⟩

/-- C7, concrete scenario `Filter(n -> n > 10, [1,2,3]) = []` (present, not nil), and
the same for the always-false predicate on `[1,2,3]` and for any predicate on the nil
slice. -/
theorem Filter_no_match_witness :
    ((Filter (fun _ n => n) (fun n : Int => decide (n > 10)) (Slice.lit [1, 2, 3])).isNil = false ∧
      (Filter (fun _ n => n) (fun n : Int => decide (n > 10)) (Slice.lit [1, 2, 3])).elems = []) ∧
    (Filter (fun _ n => n) (fun _ : Int => false) (Slice.lit [1, 2, 3])).isNil = false ∧
    (Filter (fun _ n => n) (fun n : Int => decide (n > 10)) Slice.nil).isNil = false :=
  ⟨⟨(Filter_no_match_is_non_nil_empty (fun _ n => n) (fun n : Int => decide (n > 10))
        (Slice.lit [1, 2, 3]) (by decide)).1,
    (Filter_no_match_is_non_nil_empty (fun _ n => n) (fun n : Int => decide (n > 10))
        (Slice.lit [1, 2, 3]) (by decide)).2.2⟩,
   (Filter_no_match_is_non_nil_empty (fun _ n => n) (fun _ : Int => false)
        (Slice.lit [1, 2, 3]) (by decide)).1,
   (Filter_no_match_is_non_nil_empty (fun _ n => n) (fun n : Int => decide (n > 10))
        Slice.nil (by decide)).1⟩

/-- C8: the slice `Filter` returns has storage sized exactly to the matches: its
capacity equals its length, which is the number of input elements satisfying the
predicate; the working buffer held the same elements with capacity `len(iterable)`,
and none of that capacity is carried over to the result. -/
theorem Filter_capacity_is_match_count {T : Type} [Inhabited T] (grow : Nat → Nat → Nat)
    (fn : T → Bool) (iterable : Slice T) :
    (Filter grow fn iterable).cap = (Filter grow fn iterable).len ∧
    (Filter grow fn iterable).len = iterable.elems.countP fn ∧
    (Filter.buffer grow fn iterable).cap = iterable.len ∧
    (Filter.buffer grow fn iterable).elems = (Filter grow fn iterable).elems := by
  rw [Filter_eq, Filter_buffer_eq]
  refine ⟨rfl, ?_, rfl, rfl⟩
  simp [Slice.len, List.countP_eq_length_filter]

/-- C8, concrete scenario: `Filter(n -> n > 10, [1,2,3])` has length 0 and capacity 0,
while its working buffer had capacity 3. -/
theorem Filter_capacity_witness :
    (Filter (fun _ n => n) (fun n : Int => decide (n > 10)) (Slice.lit [1, 2, 3])).len = 0 ∧
    (Filter (fun _ n => n) (fun n : Int => decide (n > 10)) (Slice.lit [1, 2, 3])).cap = 0 ∧
    (Filter.buffer (fun _ n => n) (fun n : Int => decide (n > 10)) (Slice.lit [1, 2, 3])).cap
      = 3 := by
  have h := Filter_capacity_is_match_count (fun _ n => n) (fun n : Int => decide (n > 10))
    (Slice.lit [1, 2, 3])
  have hlen : (Filter (fun _ n => n) (fun n : Int => decide (n > 10))
      (Slice.lit [1, 2, 3])).len = 0 := by
    rw [h.2.1]
    decide
  exact ⟨hlen, by rw [h.1, hlen], h.2.2.1⟩

/-- C9: for a transform with side effects whose calls are logged, `Map(fn, data)`
calls `fn` exactly `len(data)` times and the `k`-th call has argument `data[k]`: the
arguments logged during the call are the input sequence, in index order.  The
logging does not change the result or the other effects of `fn`. -/
theorem Map_calls_fn_once_per_element_in_order {σ α β : Type} [Inhabited β]
    (fn : α → StateM σ β) (data : Slice α) (log : List α) (s : σ) :
    ((MapM (logged fn) data).run (log, s)).2.1 = log ++ data.elems ∧
    ((MapM (logged fn) data).run ([], s)).2.1.length = data.len ∧
    (∀ k : Fin data.len,
      ((MapM (logged fn) data).run ([], s)).2.1[k.val]? = some (data.elems.get k)) ∧
    ((MapM (logged fn) data).run (log, s)).1 = ((MapM fn data).run s).1 ∧
    ((MapM (logged fn) data).run (log, s)).2.2 = ((MapM fn data).run s).2 := by
  rw [MapM_logged, MapM_logged]
  refine ⟨rfl, rfl, fun k => ?_, rfl, rfl⟩
  simp

/-- C9 at `data = [5, 6, 7]`, with a transform that also counts its calls in its own
state: the log reads `[5, 6, 7]`, the counter ends at 3, the result is `[6, 7, 8]`. -/
theorem Map_call_log_witness :
    ((MapM (logged (fun (n : Int) (c : Nat) => (n + 1, c + 1))) (Slice.lit [5, 6, 7])).run
      ([], 0)).2.1 = [5, 6, 7] ∧
    ((MapM (logged (fun (n : Int) (c : Nat) => (n + 1, c + 1))) (Slice.lit [5, 6, 7])).run
      ([], 0)) = (Slice.lit [6, 7, 8], ([5, 6, 7], 3)) :=
  ⟨(Map_calls_fn_once_per_element_in_order (fun (n : Int) (c : Nat) => (n + 1, c + 1))
      (Slice.lit [5, 6, 7]) [] 0).1, rfl⟩

/-- C10: for a predicate whose calls are logged, `Filter(fn, iterable)` evaluates `fn`
exactly `len(iterable)` times, once per element in index order: the arguments logged
are the input sequence.  The log (and every other effect) after the whole call is
the one the loop leaves, so the shrink-to-fit copy evaluates the predicate no further
time; the logging does not change the result. -/
theorem Filter_calls_fn_once_per_element_in_order {σ T : Type} [Inhabited T]
    (grow : Nat → Nat → Nat) (fn : T → StateM σ Bool) (iterable : Slice T) (log : List T)
    (s : σ) :
    ((FilterM grow (logged fn) iterable).run (log, s)).2.1 = log ++ iterable.elems ∧
    ((FilterM grow (logged fn) iterable).run ([], s)).2.1.length = iterable.len ∧
    (∀ k : Fin iterable.len,
      ((FilterM grow (logged fn) iterable).run ([], s)).2.1[k.val]?
        = some (iterable.elems.get k)) ∧
    ((FilterM grow (logged fn) iterable).run (log, s)).2
      = ((FilterM.loop grow (logged fn) iterable.elems (Slice.make 0 iterable.len)).run
          (log, s)).2 ∧
    ((FilterM grow (logged fn) iterable).run (log, s)).1
      = ((FilterM grow fn iterable).run s).1 := by
  refine ⟨?_, ?_, fun k => ?_, rfl, ?_⟩
  · rw [FilterM_logged]
  · rw [FilterM_logged]
    rfl
  · rw [FilterM_logged]
    simp
  · rw [FilterM_logged]

/-- C10 at `iterable = [1, 12, 3]`, with the predicate `n > 10` counting its calls in
its own state: the log reads `[1, 12, 3]`, the counter ends at 3, the result is `[12]`
with capacity 1. -/
theorem Filter_call_log_witness :
    ((FilterM (fun _ n => n) (logged (fun (n : Int) (c : Nat) => (decide (n > 10), c + 1)))
      (Slice.lit [1, 12, 3])).run ([], 0)).2.1 = [1, 12, 3] ∧
    ((FilterM (fun _ n => n) (logged (fun (n : Int) (c : Nat) => (decide (n > 10), c + 1)))
      (Slice.lit [1, 12, 3])).run ([], 0)) = (Slice.lit [12], ([1, 12, 3], 3)) :=
  ⟨(Filter_calls_fn_once_per_element_in_order (fun _ n => n)
      (fun (n : Int) (c : Nat) => (decide (n > 10), c + 1)) (Slice.lit [1, 12, 3]) [] 0).1,
    rfl⟩

/-- C14: the documented example, `Reduce` with `fn(acc, item) = acc + item^2` over
`[1, 2, 3, 4]` from `init = 1` (read with exact arithmetic), returns 31, which is not
the sum of squares `1^2 + 2^2 + 3^2 + 4^2 = 30` the comment names: the initial value 1
is counted in. -/
theorem Reduce_doc_example_value :
    Reduce (fun (acc : ℚ) (item : Int) => acc + (item : ℚ) ^ 2) (Slice.lit [1, 2, 3, 4]) 1 = 31 ∧
    ((1 : ℚ) ^ 2 + 2 ^ 2 + 3 ^ 2 + 4 ^ 2 = 30) ∧
    Reduce (fun (acc : ℚ) (item : Int) => acc + (item : ℚ) ^ 2) (Slice.lit [1, 2, 3, 4]) 1
      ≠ (1 : ℚ) ^ 2 + 2 ^ 2 + 3 ^ 2 + 4 ^ 2 ∧
    Reduce (fun (acc : ℚ) (item : Int) => acc + (item : ℚ) ^ 2) (Slice.lit [1, 2, 3, 4]) 0
      = (1 : ℚ) ^ 2 + 2 ^ 2 + 3 ^ 2 + 4 ^ 2 := by
  rw [Reduce_eq_foldl, Reduce_eq_foldl]
  simp only [Slice.lit, List.foldl_cons, List.foldl_nil]
  norm_num

/-- C15: map fusion.  For pure `f` and `g`, `Map(g, Map(f, S))` is `Map(g after f, S)`
(the same slice: contents, length, capacity, non-nil), and `Map` with the identity
returns a slice with the contents and length of `S`. -/
theorem Map_fusion_and_identity {A B C : Type} [Inhabited A] [Inhabited B] [Inhabited C]
    (f : A → B) (g : B → C) (S : Slice A) :
    Map g (Map f S) = Map (fun x => g (f x)) S ∧
    (Map (fun x : A => x) S).elems = S.elems ∧
    (Map (fun x : A => x) S).len = S.len := by
  simp only [Map_eq, Slice.len, List.map_map, List.length_map, List.map_id_fun', id_eq]
  exact ⟨rfl, trivial, trivial⟩

/-- C16: filter composition.  For pure `p` and `q`, `Filter(p, Filter(q, S))` is
`Filter(x -> q(x) and p(x), S)`; hence `Filter` is idempotent and successive filters
commute.  The equalities are between whole slices (contents, length, capacity). -/
theorem Filter_composition {T : Type} [Inhabited T] (grow : Nat → Nat → Nat)
    (p q : T → Bool) (S : Slice T) :
    Filter grow p (Filter grow q S) = Filter grow (fun x => q x && p x) S ∧
    Filter grow p (Filter grow p S) = Filter grow p S ∧
    Filter grow p (Filter grow q S) = Filter grow q (Filter grow p S) := by
  simp only [Filter_eq, List.filter_filter]
  refine ⟨?_, ?_, ?_⟩
  · have h : (fun a => p a && q a) = (fun x => q x && p x) := by
      funext a; exact Bool.and_comm _ _
    rw [h]
  · simp
  · have h : (fun a => p a && q a) = (fun a => q a && p a) := by
      funext a; exact Bool.and_comm _ _
    rw [h]

/-- C17: the three operations respect concatenation.  For a slice `X` whose contents
are those of `S` followed by those of `T` (`X = S ++ T`), pure callbacks and every
`init`: `Reduce(f, X, v) = Reduce(f, T, Reduce(f, S, v))`, the contents of `Map(g, X)`
are those of `Map(g, S)` followed by those of `Map(g, T)`, and the contents of
`Filter(p, X)` are those of `Filter(p, S)` followed by those of `Filter(p, T)`. -/
theorem operations_respect_concatenation {A I B : Type} [Inhabited I] [Inhabited B]
    (grow : Nat → Nat → Nat) (f : A → I → A) (g : I → B) (p : I → Bool) (v : A)
    (S T X : Slice I) (hX : X.elems = S.elems ++ T.elems) :
    Reduce f X v = Reduce f T (Reduce f S v) ∧
    (Map g X).elems = (Map g S).elems ++ (Map g T).elems ∧
    (Map g X).len = (Map g S).len + (Map g T).len ∧
    (Filter grow p X).elems = (Filter grow p S).elems ++ (Filter grow p T).elems ∧
    (Filter grow p X).len = (Filter grow p S).len + (Filter grow p T).len := by
  simp only [Reduce_eq_foldl, Map_eq, Filter_eq, Slice.len, hX, List.foldl_append,
    List.map_append, List.filter_append, List.length_append, and_self]

/-- C17 at `S = [1, 2]`, `T = [3, 4]`, `X = [1, 2, 3, 4]`, with the non-commutative
`f(acc, x) = 2*acc - x`, `g(x) = x + 1` and `p(x) = (x is even)`. -/
theorem operations_respect_concatenation_witness :
    Reduce (fun (acc x : Int) => 2 * acc - x) (Slice.lit [1, 2, 3, 4]) 1
      = Reduce (fun (acc x : Int) => 2 * acc - x) (Slice.lit [3, 4])
          (Reduce (fun (acc x : Int) => 2 * acc - x) (Slice.lit [1, 2]) 1) ∧
    (Map (fun x : Int => x + 1) (Slice.lit [1, 2, 3, 4])).elems
      = (Map (fun x : Int => x + 1) (Slice.lit [1, 2])).elems
          ++ (Map (fun x : Int => x + 1) (Slice.lit [3, 4])).elems ∧
    (Filter (fun _ n => n) (fun x : Int => x % 2 == 0) (Slice.lit [1, 2, 3, 4])).elems
      = (Filter (fun _ n => n) (fun x : Int => x % 2 == 0) (Slice.lit [1, 2])).elems
          ++ (Filter (fun _ n => n) (fun x : Int => x % 2 == 0) (Slice.lit [3, 4])).elems :=
  have h := operations_respect_concatenation (fun _ n => n) (fun (acc x : Int) => 2 * acc - x)
    (fun x : Int => x + 1) (fun x : Int => x % 2 == 0) 1
    (Slice.lit [1, 2]) (Slice.lit [3, 4]) (Slice.lit [1, 2, 3, 4]) rfl
  ⟨h.1, h.2.1, h.2.2.2.1⟩

/-- C18: `Filter` partitions its input.  For a pure predicate `p`,
`len(Filter(p, S)) + len(Filter(not p, S)) = len(S)`; `len(Filter(p, S)) = len(S)`
exactly when every element of `S` satisfies `p`; and in that case `Filter(p, S)` has
the contents of `S`, element for element. -/
theorem Filter_partitions_input {T : Type} [Inhabited T] (grow : Nat → Nat → Nat)
    (p : T → Bool) (S : Slice T) :
    (Filter grow p S).len + (Filter grow (fun x => !p x) S).len = S.len ∧
    ((Filter grow p S).len = S.len ↔ ∀ x ∈ S.elems, p x = true) ∧
    ((∀ x ∈ S.elems, p x = true) → (Filter grow p S).elems = S.elems) := by
  simp only [Filter_eq, Slice.len]
  refine ⟨?_, ?_, ?_⟩
  · generalize S.elems = l
    induction l with
    | nil => rfl
    | cons a l ih =>
      cases h : p a <;> simp [List.filter_cons, h] <;> omega
  · exact List.filter_length_eq_length
  · intro h
    exact List.filter_eq_self.mpr h

/-- C18 at `S = [2, 4, 5]`: with `p(x) = (x is even)` the two filters have 2 and 1
elements; with `p(x) = (x > 0)`, which every element satisfies, the filter has the 3
elements of `S`. -/
theorem Filter_partitions_input_witness :
    (Filter (fun _ n => n) (fun x : Int => x % 2 == 0) (Slice.lit [2, 4, 5])).len
      + (Filter (fun _ n => n) (fun x : Int => !(x % 2 == 0)) (Slice.lit [2, 4, 5])).len = 3 ∧
    (Filter (fun _ n => n) (fun x : Int => decide (x > 0)) (Slice.lit [2, 4, 5])).elems
      = [2, 4, 5] ∧
    (Filter (fun _ n => n) (fun x : Int => decide (x > 0)) (Slice.lit [2, 4, 5])).len = 3 :=
  ⟨(Filter_partitions_input (fun _ n => n) (fun x : Int => x % 2 == 0)
      (Slice.lit [2, 4, 5])).1,
   (Filter_partitions_input (fun _ n => n) (fun x : Int => decide (x > 0))
      (Slice.lit [2, 4, 5])).2.2 (by decide),
   (Filter_partitions_input (fun _ n => n) (fun x : Int => decide (x > 0))
      (Slice.lit [2, 4, 5])).2.1.mpr (by decide)⟩

/-- C19: `Filter` and `Map` are instances of `Reduce`.  The contents of `Filter(p, S)`
are `Reduce(step, S, [])` for `step(acc, x)` = `acc` with `x` appended when `p(x)`
holds and `acc` otherwise; the contents of `Map(f, S)` are
`Reduce((acc, x) -> acc with f(x) appended, S, [])`. -/
theorem Filter_and_Map_are_Reduce {T B : Type} [Inhabited T] [Inhabited B]
    (grow : Nat → Nat → Nat) (p : T → Bool) (f : T → B) (S : Slice T) :
    (Filter grow p S).elems
      = Reduce (fun (acc : List T) (x : T) => if p x then acc ++ [x] else acc) S [] ∧
    (Map f S).elems = Reduce (fun (acc : List B) (x : T) => acc ++ [f x]) S [] := by
  rw [Filter_eq, Map_eq, Reduce_eq_foldl, Reduce_eq_foldl]
  have hF : ∀ (l : List T) (acc : List T),
      l.foldl (fun (acc : List T) (x : T) => if p x then acc ++ [x] else acc) acc
        = acc ++ l.filter p := by
    intro l
    induction l with
    | nil => intro acc; simp
    | cons a l ih =>
      intro acc
      cases h : p a <;> simp [List.filter_cons, h, ih]
  have hM : ∀ (l : List T) (acc : List B),
      l.foldl (fun (acc : List B) (x : T) => acc ++ [f x]) acc = acc ++ l.map f := by
    intro l
    induction l with
    | nil => intro acc; simp
    | cons a l ih => intro acc; simp [ih]
  exact ⟨by rw [hF]; rfl, by rw [hM]; rfl⟩

/-! ### Failing callbacks -/

theorem mapM'_except_ok {ε α β : Type} (fn : α → Except ε β) (f : α → β) (l : List α)
    (h : ∀ x ∈ l, fn x = .ok (f x)) : l.mapM' fn = .ok (l.map f) := by
  induction l with
  | nil => rfl
  | cons a l ih =>
    rw [List.mapM'_cons, h a (List.mem_cons_self a l),
      ih (fun x hx => h x (List.mem_cons_of_mem a hx))]
    rfl

theorem mapM'_except_error {ε α β : Type} (fn : α → Except ε β) (pre post : List α) (x : α)
    (e : ε) (hpre : ∀ y ∈ pre, ∃ v, fn y = .ok v) (hx : fn x = .error e) :
    (pre ++ x :: post).mapM' fn = .error e := by
  induction pre with
  | nil =>
    rw [List.nil_append, List.mapM'_cons, hx]
    rfl
  | cons a pre ih =>
    obtain ⟨v, hv⟩ := hpre a (List.mem_cons_self a pre)
    rw [List.cons_append, List.mapM'_cons, hv,
      ih (fun y hy => hpre y (List.mem_cons_of_mem a hy))]
    rfl

theorem FilterM_loop_except_ok {ε T : Type} (grow : Nat → Nat → Nat) (fn : T → Except ε Bool)
    (p : T → Bool) (l : List T) (filtered : Slice T) (h : ∀ x ∈ l, fn x = .ok (p x)) :
    FilterM.loop grow fn l filtered
      = .ok (Id.run (FilterM.loop grow (fun item => (pure (p item) : Id Bool)) l filtered)) := by
  induction l generalizing filtered with
  | nil => rfl
  | cons a l ih =>
    have ha := h a (List.mem_cons_self a l)
    have hl := fun x hx => h x (List.mem_cons_of_mem a hx)
    cases hp : p a with
    | true =>
      rw [hp] at ha
      have h1 : FilterM.loop grow fn (a :: l) filtered
          = FilterM.loop grow fn l (filtered.append grow a) := by
        simp [FilterM.loop, ha, bind, Except.bind]
      have h2 : Id.run (FilterM.loop grow (fun item => (pure (p item) : Id Bool)) (a :: l) filtered)
          = Id.run (FilterM.loop grow (fun item => (pure (p item) : Id Bool)) l
              (filtered.append grow a)) := by
        simp [FilterM.loop, hp]
      rw [h1, h2, ih _ hl]
    | false =>
      rw [hp] at ha
      have h1 : FilterM.loop grow fn (a :: l) filtered = FilterM.loop grow fn l filtered := by
        simp [FilterM.loop, ha, bind, Except.bind]
      have h2 : Id.run (FilterM.loop grow (fun item => (pure (p item) : Id Bool)) (a :: l) filtered)
          = Id.run (FilterM.loop grow (fun item => (pure (p item) : Id Bool)) l filtered) := by
        simp [FilterM.loop, hp]
      rw [h1, h2, ih _ hl]

theorem FilterM_loop_except_error {ε T : Type} (grow : Nat → Nat → Nat)
    (fn : T → Except ε Bool) (pre post : List T) (x : T) (e : ε) (filtered : Slice T)
    (hpre : ∀ y ∈ pre, ∃ v, fn y = .ok v) (hx : fn x = .error e) :
    FilterM.loop grow fn (pre ++ x :: post) filtered = .error e := by
  induction pre generalizing filtered with
  | nil => simp [FilterM.loop, hx, bind, Except.bind]
  | cons a pre ih =>
    obtain ⟨v, hv⟩ := hpre a (List.mem_cons_self a pre)
    have hl := fun y hy => hpre y (List.mem_cons_of_mem a hy)
    cases v with
    | true =>
      have h1 : FilterM.loop grow fn (a :: pre ++ x :: post) filtered
          = FilterM.loop grow fn (pre ++ x :: post) (filtered.append grow a) := by
        simp [FilterM.loop, hv, bind, Except.bind]
      rw [h1, ih _ hl]
    | false =>
      have h1 : FilterM.loop grow fn (a :: pre ++ x :: post) filtered
          = FilterM.loop grow fn (pre ++ x :: post) filtered := by
        simp [FilterM.loop, hv, bind, Except.bind]
      rw [h1, ih _ hl]

theorem foldlM_except_prefix {ε A I : Type} (fn : A → I → Except ε A) (l : List I)
    (acc : Nat → A)
    (hstep : ∀ k : Fin l.length, fn (acc k.val) (l.get k) = .ok (acc (k.val + 1))) :
    l.foldlM fn (acc 0) = .ok (acc l.length) := by
  induction l generalizing acc with
  | nil => rfl
  | cons a l ih =>
    have h0 := hstep ⟨0, Nat.succ_pos _⟩
    simp only [List.get_eq_getElem, List.getElem_cons_zero, Nat.zero_add] at h0
    rw [List.foldlM_cons, h0]
    have := ih (fun k => acc (k + 1)) (fun k => by
      have hk := hstep ⟨k.val + 1, Nat.succ_lt_succ k.isLt⟩
      simpa using hk)
    simpa [bind, Except.bind] using this

/-- C12: callbacks that may fail (`Except ε`).  For each of `Map`, `Filter` and
`Reduce`: if the callback succeeds on the elements before `x` and fails on `x` with
error `e`, the operation fails with exactly `e` (the error of the first failing
element in index order; nothing is caught, wrapped or replaced by a result); and if
the callback succeeds on every element, the operation succeeds, with the result of
the pure operation on the values returned.  For `Reduce` the callback is applied to
the accumulator values `acc k` reached so far. -/
theorem callback_errors_propagate_unchanged {ε α β A : Type} [Inhabited α] [Inhabited β]
    (grow : Nat → Nat → Nat) (fnM : α → Except ε β) (fnF : α → Except ε Bool)
    (fnR : A → α → Except ε A) (init : A) (data : Slice α) :
    (∀ (pre post : List α) (x : α) (e : ε), data.elems = pre ++ x :: post →
      (∀ y ∈ pre, ∃ v, fnM y = .ok v) → fnM x = .error e → MapM fnM data = .error e) ∧
    (∀ (pre post : List α) (x : α) (e : ε), data.elems = pre ++ x :: post →
      (∀ y ∈ pre, ∃ v, fnF y = .ok v) → fnF x = .error e →
      FilterM grow fnF data = .error e) ∧
    (∀ (pre post : List α) (x : α) (e : ε) (acc : Nat → A), data.elems = pre ++ x :: post →
      acc 0 = init →
      (∀ k : Fin pre.length, fnR (acc k.val) (pre.get k) = .ok (acc (k.val + 1))) →
      fnR (acc pre.length) x = .error e → ReduceM fnR data init = .error e) ∧
    (∀ f : α → β, (∀ y ∈ data.elems, fnM y = .ok (f y)) →
      MapM fnM data = .ok (Map f data)) ∧
    (∀ p : α → Bool, (∀ y ∈ data.elems, fnF y = .ok (p y)) →
      FilterM grow fnF data = .ok (Filter grow p data)) ∧
    (∀ acc : Nat → A, acc 0 = init →
      (∀ k : Fin data.len, fnR (acc k.val) (data.elems.get k) = .ok (acc (k.val + 1))) →
      ReduceM fnR data init = .ok (acc data.len)) := by
  refine ⟨?_, ?_, ?_, ?_, ?_, ?_⟩
  · intro pre post x e hd hpre hx
    rw [MapM_eq, hd, mapM'_except_error fnM pre post x e hpre hx]
    rfl
  · intro pre post x e hd hpre hx
    unfold FilterM
    rw [hd, FilterM_loop_except_error grow fnF pre post x e _ hpre hx]
    rfl
  · intro pre post x e acc hd h0 hstep hx
    rw [ReduceM_eq, hd, List.foldlM_append, ← h0, foldlM_except_prefix fnR pre acc hstep]
    show (x :: post).foldlM fnR (acc pre.length) = .error e
    rw [List.foldlM_cons, hx]
    rfl
  · intro f hf
    rw [MapM_eq, mapM'_except_ok fnM f data.elems hf, Map_eq]
    simp [Slice.splice, Slice.make, Slice.len]
  · intro p hp
    unfold FilterM
    rw [FilterM_loop_except_ok grow fnF p data.elems _ hp]
    rfl
  · intro acc h0 hstep
    rw [ReduceM_eq, ← h0]
    exact foldlM_except_prefix fnR data.elems acc hstep

/-- C12 on `[1, 2, 3, 4]` with callbacks that fail on the elements 3 and 4, each
with the element as the error: every operation fails with the error 3 of the first
failing element; on `[1, 2]`, where the callbacks succeed, the operations succeed. -/
theorem callback_errors_witness :
    MapM failFrom3 (Slice.lit [1, 2, 3, 4]) = .error 3 ∧
    FilterM (fun _ n => n) evenFailFrom3 (Slice.lit [1, 2, 3, 4]) = .error 3 ∧
    ReduceM addFailFrom3 (Slice.lit [1, 2, 3, 4]) 10 = .error 3 ∧
    MapM failFrom3 (Slice.lit [1, 2]) = .ok (Slice.lit [2, 4]) ∧
    FilterM (fun _ n => n) evenFailFrom3 (Slice.lit [1, 2]) = .ok (Slice.lit [2]) ∧
    ReduceM addFailFrom3 (Slice.lit [1, 2]) 10 = .ok 13 := by
  have hfail := callback_errors_propagate_unchanged (fun _ n => n) failFrom3 evenFailFrom3
    addFailFrom3 10 (Slice.lit [1, 2, 3, 4])
  have hok := callback_errors_propagate_unchanged (fun _ n => n) failFrom3 evenFailFrom3
    addFailFrom3 10 (Slice.lit [1, 2])
  refine ⟨?_, ?_, ?_, ?_, ?_, ?_⟩
  · refine hfail.1 [1, 2] [4] 3 3 rfl ?_ rfl
    intro y hy
    simp only [List.mem_cons, List.mem_singleton, List.not_mem_nil, or_false] at hy
    rcases hy with rfl | rfl
    · exact ⟨2, rfl⟩
    · exact ⟨4, rfl⟩
  · refine hfail.2.1 [1, 2] [4] 3 3 rfl ?_ rfl
    intro y hy
    simp only [List.mem_cons, List.mem_singleton, List.not_mem_nil, or_false] at hy
    rcases hy with rfl | rfl
    · exact ⟨false, rfl⟩
    · exact ⟨true, rfl⟩
  · refine hfail.2.2.1 [1, 2] [4] 3 3 (fun k => [10, 11, 13].getD k 0) rfl rfl ?_ rfl
    intro k
    rcases k with ⟨k, hk⟩
    have hk2 : k < 2 := hk
    interval_cases k <;> rfl
  · refine (hok.2.2.2.1 (fun n => n * 2) ?_).trans (congrArg Except.ok (by decide))
    intro y hy
    simp only [Slice.lit, List.mem_cons, List.mem_singleton, List.not_mem_nil, or_false] at hy
    rcases hy with rfl | rfl <;> rfl
  · refine (hok.2.2.2.2.1 (fun n => n % 2 == 0) ?_).trans (congrArg Except.ok (by decide))
    intro y hy
    simp only [Slice.lit, List.mem_cons, List.mem_singleton, List.not_mem_nil, or_false] at hy
    rcases hy with rfl | rfl <;> rfl
  · refine hok.2.2.2.2.2 (fun k => [10, 11, 13].getD k 0) rfl ?_
    intro k
    rcases k with ⟨k, hk⟩
    have hk2 : k < 2 := hk
    interval_cases k <;> rfl


/-- C13 as stated fails on inputs of length 0: with a nil callback, `Map` and
`Filter` on the empty slice return the (allocated) empty slice and `Reduce` returns
`init`; nothing panics, since the callback is never called. -/
theorem nil_callback_on_empty_input_returns :
    MapM (callFunc (none : Option (Int → Int))) (Slice.lit []) = .ok ⟨false, [], 0⟩ ∧
    ReduceM (callFunc₂ (none : Option (Int → Int → Int))) (Slice.lit []) 7 = .ok 7 ∧
    FilterM (fun _ n => n) (callFunc (none : Option (Int → Bool))) (Slice.lit [])
      = .ok ⟨false, [], 0⟩ ∧
    MapM (callFunc (none : Option (Int → Int))) Slice.nil = .ok ⟨false, [], 0⟩ :=
  ⟨rfl, rfl, rfl, rfl⟩

/-- C13, amended: with a nil callback, `Map`, `Reduce` and `Filter` panic (nil
dereference) on every input slice that has at least one element; on an input of
length 0 the callback is never called and the call returns normally (`Map` and
`Filter` an allocated empty slice, `Reduce` the value `init`). -/
theorem nil_callback_panics_iff_nonempty {α β A : Type} [Inhabited α] [Inhabited β]
    (grow : Nat → Nat → Nat) (data : Slice α) (init : A) :
    (0 < data.len →
      MapM (callFunc (none : Option (α → β))) data = .error .nilDereference ∧
      ReduceM (callFunc₂ (none : Option (A → α → A))) data init = .error .nilDereference ∧
      FilterM grow (callFunc (none : Option (α → Bool))) data = .error .nilDereference) ∧
    (data.len = 0 →
      MapM (callFunc (none : Option (α → β))) data = .ok ⟨false, [], 0⟩ ∧
      ReduceM (callFunc₂ (none : Option (A → α → A))) data init = .ok init ∧
      FilterM grow (callFunc (none : Option (α → Bool))) data = .ok ⟨false, [], 0⟩) := by
  constructor
  · intro hpos
    obtain ⟨x, post, hd⟩ : ∃ x post, data.elems = x :: post := by
      cases hl : data.elems with
      | nil => simp [Slice.len, hl] at hpos
      | cons x post => exact ⟨x, post, rfl⟩
    refine ⟨?_, ?_, ?_⟩
    · rw [MapM_eq, hd]
      rfl
    · rw [ReduceM_eq, hd]
      rfl
    · unfold FilterM
      rw [hd]
      rfl
  · intro h0
    have hel : data.elems = [] := List.length_eq_zero.mp h0
    refine ⟨?_, ?_, ?_⟩
    · unfold MapM
      rw [h0, hel]
      rfl
    · rw [ReduceM_eq, hel]
      rfl
    · unfold FilterM
      rw [hel]
      rfl

/-- C13 amended, at `[1, 2, 3]` (every operation panics) and at the nil slice (every
operation returns). -/
theorem nil_callback_witness :
    (MapM (callFunc (none : Option (Int → Int))) (Slice.lit [1, 2, 3])
        = .error .nilDereference ∧
      ReduceM (callFunc₂ (none : Option (Int → Int → Int))) (Slice.lit [1, 2, 3]) 7
        = .error .nilDereference ∧
      FilterM (fun _ n => n) (callFunc (none : Option (Int → Bool))) (Slice.lit [1, 2, 3])
        = .error .nilDereference) ∧
    (MapM (callFunc (none : Option (Int → Int))) Slice.nil = .ok ⟨false, [], 0⟩ ∧
      ReduceM (callFunc₂ (none : Option (Int → Int → Int))) Slice.nil 7 = .ok 7 ∧
      FilterM (fun _ n => n) (callFunc (none : Option (Int → Bool))) Slice.nil
        = .ok ⟨false, [], 0⟩) :=
  ⟨(nil_callback_panics_iff_nonempty (fun _ n => n) (Slice.lit [1, 2, 3]) 7).1 (by decide),
   (nil_callback_panics_iff_nonempty (fun _ n => n) Slice.nil 7).2 rfl⟩


/-! ### Frame lemmas for the memory model -/

theorem array_set_ne {V : Type} (h : Heap V) (a d : Nat) (x : List V) (hne : a ≠ d) :
    Heap.array (h.set a x) d = Heap.array h d := by
  unfold Heap.array
  simp [List.getD_eq_getElem?_getD, List.getElem?_set_ne hne]

theorem array_append_lt {V : Type} (h : Heap V) (d : Nat) (x : List V) (hd : d < h.length) :
    Heap.array (h ++ [x]) d = Heap.array h d := by
  unfold Heap.array
  simp [List.getD_eq_getElem?_getD, List.getElem?_append_left hd]

theorem store_frame {V : Type} (h : Heap V) (s : SliceH) (i d : Nat) (v : V)
    (hne : s.arr ≠ d) :
    (h.store s i v).length = h.length ∧ Heap.array (h.store s i v) d = Heap.array h d :=
  ⟨by simp [Heap.store], array_set_ne h s.arr d _ hne⟩

theorem make_frame {V : Type} [Inhabited V] (h : Heap V) (n c d : Nat) (hd : d < h.length) :
    (h.make n c).1.arr ≠ d ∧ d < (h.make n c).2.length ∧
    Heap.array (h.make n c).2 d = Heap.array h d := by
  refine ⟨?_, ?_, array_append_lt h d _ hd⟩
  · simp only [Heap.make]
    omega
  · simp only [Heap.make, List.length_append, List.length_singleton]
    omega

theorem append_frame {V : Type} [Inhabited V] (grow : Nat → Nat → Nat) (h : Heap V)
    (s : SliceH) (x : V) (d : Nat) (hne : s.arr ≠ d) (hd : d < h.length) :
    (h.append grow s x).1.arr ≠ d ∧ d < (h.append grow s x).2.length ∧
    Heap.array (h.append grow s x).2 d = Heap.array h d := by
  unfold Heap.append
  split
  · refine ⟨hne, ?_, (store_frame h s s.len d x hne).2⟩
    rw [(store_frame h s s.len d x hne).1]
    exact hd
  · refine ⟨?_, ?_, array_append_lt h d _ hd⟩
    · show h.length ≠ d
      omega
    · simp only [List.length_append, List.length_singleton]
      omega

theorem MapH_loop_frame {V : Type} [Inhabited V] (fn : V → Heap V → V × Heap V)
    (data res : SliceH) (d : Nat) (hne : res.arr ≠ d)
    (hfn : ∀ x m, d < m.length →
      m.length ≤ (fn x m).2.length ∧ Heap.array (fn x m).2 d = Heap.array m d)
    (is : List Nat) (h : Heap V) (hd : d < h.length) :
    d < (MapH.loop fn data res is h).length ∧
    Heap.array (MapH.loop fn data res is h) d = Heap.array h d := by
  induction is generalizing h with
  | nil => exact ⟨hd, rfl⟩
  | cons i rest ih =>
    have hc := hfn (h.load data i) h hd
    have hs := store_frame (fn (h.load data i) h).2 res i d (fn (h.load data i) h).1 hne
    have hd1 : d < ((fn (h.load data i) h).2.store res i (fn (h.load data i) h).1).length := by
      rw [hs.1]
      exact Nat.lt_of_lt_of_le hd hc.1
    have := ih _ hd1
    simp only [MapH.loop]
    exact ⟨this.1, by rw [this.2, hs.2, hc.2]⟩

theorem ReduceH_loop_frame {V A : Type} [Inhabited V] (fn : A → V → Heap V → A × Heap V)
    (iterable : SliceH) (d : Nat)
    (hfn : ∀ a x m, d < m.length →
      m.length ≤ (fn a x m).2.length ∧ Heap.array (fn a x m).2 d = Heap.array m d)
    (is : List Nat) (init : A) (h : Heap V) (hd : d < h.length) :
    d < (ReduceH.loop fn iterable is init h).2.length ∧
    Heap.array (ReduceH.loop fn iterable is init h).2 d = Heap.array h d := by
  induction is generalizing init h with
  | nil => exact ⟨hd, rfl⟩
  | cons i rest ih =>
    have hc := hfn init (h.load iterable i) h hd
    have := ih (fn init (h.load iterable i) h).1 _ (Nat.lt_of_lt_of_le hd hc.1)
    simp only [ReduceH.loop]
    exact ⟨this.1, by rw [this.2, hc.2]⟩

theorem FilterH_loop_frame {V : Type} [Inhabited V] (grow : Nat → Nat → Nat)
    (fn : V → Heap V → Bool × Heap V) (iterable : SliceH) (d : Nat)
    (hfn : ∀ x m, d < m.length →
      m.length ≤ (fn x m).2.length ∧ Heap.array (fn x m).2 d = Heap.array m d)
    (is : List Nat) (filtered : SliceH) (h : Heap V) (hne : filtered.arr ≠ d)
    (hd : d < h.length) :
    (FilterH.loop grow fn iterable is filtered h).1.arr ≠ d ∧
    d < (FilterH.loop grow fn iterable is filtered h).2.length ∧
    Heap.array (FilterH.loop grow fn iterable is filtered h).2 d = Heap.array h d := by
  induction is generalizing filtered h with
  | nil => exact ⟨hne, hd, rfl⟩
  | cons i rest ih =>
    have hc := hfn (h.load iterable i) h hd
    have hd1 : d < (fn (h.load iterable i) h).2.length := Nat.lt_of_lt_of_le hd hc.1
    simp only [FilterH.loop]
    split
    · have ha := append_frame grow (fn (h.load iterable i) h).2 filtered (h.load iterable i) d
        hne hd1
      have := ih _ _ ha.1 ha.2.1
      exact ⟨this.1, this.2.1, by rw [this.2.2, ha.2.2, hc.2]⟩
    · have := ih filtered _ hne hd1
      exact ⟨this.1, this.2.1, by rw [this.2.2, hc.2]⟩

theorem view_congr {V : Type} (h m : Heap V) (s : SliceH)
    (heq : Heap.array h s.arr = Heap.array m s.arr) : Heap.view h s = Heap.view m s := by
  unfold Heap.view
  rw [heq]

theorem MapH_frame {V : Type} [Inhabited V] (fn : V → Heap V → V × Heap V) (data : SliceH)
    (h : Heap V) (d : Nat) (hd : d < h.length)
    (hfn : ∀ x m, d < m.length →
      m.length ≤ (fn x m).2.length ∧ Heap.array (fn x m).2 d = Heap.array m d) :
    Heap.array (MapH fn data h).2 d = Heap.array h d := by
  have hm := make_frame h data.len data.len d hd
  have hl := MapH_loop_frame fn data (h.make data.len data.len).1 d hm.1 hfn
    (List.range data.len) (h.make data.len data.len).2 hm.2.1
  show Heap.array (MapH.loop fn data (h.make data.len data.len).1 (List.range data.len)
    (h.make data.len data.len).2) d = Heap.array h d
  rw [hl.2, hm.2.2]

theorem FilterH_frame {V : Type} [Inhabited V] (grow : Nat → Nat → Nat)
    (fn : V → Heap V → Bool × Heap V) (iterable : SliceH) (h : Heap V) (d : Nat)
    (hd : d < h.length)
    (hfn : ∀ x m, d < m.length →
      m.length ≤ (fn x m).2.length ∧ Heap.array (fn x m).2 d = Heap.array m d) :
    Heap.array (FilterH.loop grow fn iterable (List.range iterable.len)
        (h.make 0 iterable.len).1 (h.make 0 iterable.len).2).2 d = Heap.array h d ∧
    Heap.array (FilterH grow fn iterable h).2 d = Heap.array h d ∧
    (FilterH grow fn iterable h).1.arr ≠ d := by
  have hm := make_frame h 0 iterable.len d hd
  have hl := FilterH_loop_frame grow fn iterable d hfn (List.range iterable.len)
    (h.make 0 iterable.len).1 (h.make 0 iterable.len).2 hm.1 hm.2.1
  have hloop : Heap.array (FilterH.loop grow fn iterable (List.range iterable.len)
        (h.make 0 iterable.len).1 (h.make 0 iterable.len).2).2 d = Heap.array h d := by
    rw [hl.2.2, hm.2.2]
  refine ⟨hloop, ?_⟩
  generalize hL : FilterH.loop grow fn iterable (List.range iterable.len)
        (h.make 0 iterable.len).1 (h.make 0 iterable.len).2 = L at hl hloop
  have ha := make_frame L.2 L.1.len L.1.len d hl.2.1
  have hF : (FilterH grow fn iterable h).2
      = (L.2.make L.1.len L.1.len).2.copy (L.2.make L.1.len L.1.len).1 L.1 := by
    rw [← hL]
    rfl
  have hF1 : (FilterH grow fn iterable h).1 = (L.2.make L.1.len L.1.len).1 := by
    rw [← hL]
    rfl
  refine ⟨?_, by rw [hF1]; exact ha.1⟩
  rw [hF, Heap.copy, array_set_ne _ _ _ _ ha.1, ha.2.2, hloop]

/-! ### The memory model computes what the value model computes -/

theorem array_append_self {V : Type} (h : Heap V) (x : List V) :
    Heap.array (h ++ [x]) h.length = x := by
  unfold Heap.array
  simp [List.getD_eq_getElem?_getD]

theorem set_append_self {V : Type} (h : Heap V) (x y : List V) :
    (h ++ [x]).set h.length y = h ++ [y] := by
  induction h with
  | nil => rfl
  | cons a h ih => simp [ih]

theorem load_eq_view {V : Type} [Inhabited V] (h : Heap V) (s : SliceH) (i : Nat)
    (hwf : s.off + s.len ≤ (Heap.array h s.arr).length) (hi : i < s.len) :
    (Heap.view h s)[i]? = some (h.load s i) := by
  unfold Heap.view Heap.load
  rw [List.getElem?_take_of_lt hi, List.getElem?_drop, List.getD_eq_getElem?_getD,
    List.getElem?_eq_getElem (by omega)]
  rfl

theorem view_length {V : Type} (h : Heap V) (s : SliceH)
    (hwf : s.off + s.len ≤ (Heap.array h s.arr).length) : (Heap.view h s).length = s.len := by
  unfold Heap.view
  rw [List.length_take, List.length_drop]
  omega

theorem MapH_loop_pure {V : Type} [Inhabited V] (f : V → V) (data : SliceH) (h : Heap V)
    (hd : data.arr < h.length) (hwf : data.off + data.len ≤ (Heap.array h data.arr).length)
    (m k : Nat) (hk : k + m = data.len) :
    MapH.loop (fun x mem => (f x, mem)) data ⟨false, h.length, 0, data.len, data.len⟩
        (List.range' k m)
        (h ++ [((Heap.view h data).take k).map f ++ List.replicate m default])
      = h ++ [(Heap.view h data).map f] := by
  induction m generalizing k with
  | zero =>
    have hlen := view_length h data hwf
    simp only [List.range'_zero, MapH.loop, List.replicate_zero, List.append_nil]
    rw [List.take_of_length_le (by omega)]
  | succ m ih =>
    have hlen := view_length h data hwf
    have hlt : k < data.len := by omega
    have hload : (h ++ [((Heap.view h data).take k).map f ++ List.replicate (m + 1) default]).load
        data k = h.load data k := by
      unfold Heap.load
      rw [array_append_lt h data.arr _ hd]
    have hv := load_eq_view h data k hwf hlt
    simp only [List.range'_succ, MapH.loop, hload]
    have hstore : (h ++ [((Heap.view h data).take k).map f ++ List.replicate (m + 1) default]).store
        ⟨false, h.length, 0, data.len, data.len⟩ k (f (h.load data k))
        = h ++ [((Heap.view h data).take (k + 1)).map f ++ List.replicate m default] := by
      unfold Heap.store
      simp only [array_append_self, set_append_self, Nat.zero_add]
      congr 2
      have hkl : (List.map f (List.take k (Heap.view h data))).length = k := by
        rw [List.length_map, List.length_take]
        omega
      rw [List.set_append_right _ _ (by omega), hkl, Nat.sub_self, List.replicate_succ,
        List.set_cons_zero, List.take_succ, hv]
      simp
    rw [hstore]
    exact ih (k + 1) (by omega)

theorem MapH_refines_Map {V : Type} [Inhabited V] (f : V → V) (data : SliceH) (h : Heap V)
    (hd : data.arr < h.length) (hwf : data.off + data.len ≤ (Heap.array h data.arr).length) :
    MapH (fun x mem => (f x, mem)) data h
      = (⟨false, h.length, 0, data.len, data.len⟩,
          h ++ [(Map f ⟨data.isNil, Heap.view h data, data.cap⟩).elems]) := by
  have := MapH_loop_pure f data h hd hwf data.len 0 (by omega)
  rw [List.take_zero, List.map_nil, List.nil_append, ← List.range_eq_range'] at this
  rw [Map_eq]
  unfold MapH Heap.make
  simp only [this]

theorem ReduceH_loop_pure {V A : Type} [Inhabited V] (f : A → V → A) (data : SliceH)
    (h : Heap V) (hwf : data.off + data.len ≤ (Heap.array h data.arr).length)
    (m k : Nat) (hk : k + m = data.len) (acc : A) :
    ReduceH.loop (fun a x mem => (f a x, mem)) data (List.range' k m) acc h
      = (((Heap.view h data).drop k).foldl f acc, h) := by
  induction m generalizing k acc with
  | zero =>
    have hlen := view_length h data hwf
    simp only [List.range'_zero, ReduceH.loop]
    rw [List.drop_of_length_le (by omega)]
    rfl
  | succ m ih =>
    have hlen := view_length h data hwf
    have hlt : k < data.len := by omega
    have hv := load_eq_view h data k hwf hlt
    have hdrop : (Heap.view h data).drop k = h.load data k :: (Heap.view h data).drop (k + 1) := by
      rw [List.drop_eq_getElem_cons (by omega)]
      congr 1
      have hk' : k < (Heap.view h data).length := by omega
      have := List.getElem?_eq_getElem hk'
      rw [hv] at this
      exact (Option.some.inj this).symm
    simp only [List.range'_succ, ReduceH.loop]
    rw [ih (k + 1) (by omega), hdrop, List.foldl_cons]

theorem ReduceH_refines_Reduce {V A : Type} [Inhabited V] (f : A → V → A) (data : SliceH)
    (h : Heap V) (init : A) (hwf : data.off + data.len ≤ (Heap.array h data.arr).length) :
    ReduceH (fun a x mem => (f a x, mem)) data init h
      = (Reduce f ⟨data.isNil, Heap.view h data, data.cap⟩ init, h) := by
  have := ReduceH_loop_pure f data h hwf data.len 0 (by omega) init
  rw [← List.range_eq_range', List.drop_zero] at this
  rw [Reduce_eq_foldl]
  exact this

theorem FilterH_loop_pure {V : Type} [Inhabited V] (grow : Nat → Nat → Nat) (p : V → Bool)
    (data : SliceH) (h : Heap V) (hd : data.arr < h.length)
    (hwf : data.off + data.len ≤ (Heap.array h data.arr).length)
    (m k : Nat) (hk : k + m = data.len) (kept : List V) (hj : kept.length ≤ k) :
    FilterH.loop grow (fun x mem => (p x, mem)) data (List.range' k m)
        ⟨false, h.length, 0, kept.length, data.len⟩
        (h ++ [kept ++ List.replicate (data.len - kept.length) default])
      = (⟨false, h.length, 0, (kept ++ ((Heap.view h data).drop k).filter p).length, data.len⟩,
          h ++ [(kept ++ ((Heap.view h data).drop k).filter p)
            ++ List.replicate
                (data.len - (kept ++ ((Heap.view h data).drop k).filter p).length) default]) := by
  induction m generalizing k kept with
  | zero =>
    have hlen := view_length h data hwf
    simp only [List.range'_zero, FilterH.loop]
    rw [List.drop_of_length_le (by omega)]
    simp
  | succ m ih =>
    have hlen := view_length h data hwf
    have hlt : k < data.len := by omega
    have hv := load_eq_view h data k hwf hlt
    have hk' : k < (Heap.view h data).length := by omega
    have hdrop : (Heap.view h data).drop k = h.load data k :: (Heap.view h data).drop (k + 1) := by
      rw [List.drop_eq_getElem_cons hk']
      congr 1
      have := List.getElem?_eq_getElem hk'
      rw [hv] at this
      exact (Option.some.inj this).symm
    have hload : (h ++ [kept ++ List.replicate (data.len - kept.length) default]).load data k
        = h.load data k := by
      unfold Heap.load
      rw [array_append_lt h data.arr _ hd]
    simp only [List.range'_succ, FilterH.loop, hload]
    cases hp : p (h.load data k) with
    | false =>
      simp only [Bool.false_eq_true, if_false]
      rw [ih (k + 1) (by omega) kept (by omega), hdrop, List.filter_cons]
      simp [hp]
    | true =>
      simp only [if_true]
      have happ : (h ++ [kept ++ List.replicate (data.len - kept.length) default]).append grow
          ⟨false, h.length, 0, kept.length, data.len⟩ (h.load data k)
          = (⟨false, h.length, 0, (kept ++ [h.load data k]).length, data.len⟩,
              h ++ [(kept ++ [h.load data k])
                ++ List.replicate (data.len - (kept ++ [h.load data k]).length) default]) := by
        have hfit : kept.length < data.len := by omega
        unfold Heap.append
        simp only [hfit, if_true, Heap.store, array_append_self, set_append_self, Nat.zero_add,
          List.length_append, List.length_singleton]
        congr 3
        have hrep : data.len - kept.length = (data.len - (kept.length + 1)) + 1 := by omega
        rw [List.set_append_right _ _ (Nat.le_refl _), Nat.sub_self, hrep, List.replicate_succ,
          List.set_cons_zero]
        simp
      rw [happ, ih (k + 1) (by omega) (kept ++ [h.load data k])
        (by rw [List.length_append, List.length_singleton]; omega), hdrop, List.filter_cons]
      simp [hp]

theorem copy_into_fresh {V : Type} [Inhabited V] (g : Heap V) (K rest : List V) (a c : Nat)
    (ha : a < g.length) (hK : Heap.array g a = K ++ rest) :
    (g.make K.length K.length).2.copy (g.make K.length K.length).1
        ⟨false, a, 0, K.length, c⟩ = g ++ [K] := by
  have hview : Heap.view (g ++ [List.replicate K.length default]) ⟨false, a, 0, K.length, c⟩
      = K := by
    unfold Heap.view
    simp only [array_append_lt g a _ ha, hK, List.drop_zero]
    simp
  unfold Heap.copy Heap.make
  simp only [hview, array_append_self, Nat.min_self, Nat.zero_add, List.take_zero,
    List.nil_append]
  rw [set_append_self]
  simp

theorem FilterH_refines_Filter {V : Type} [Inhabited V] (grow : Nat → Nat → Nat)
    (p : V → Bool) (data : SliceH) (h : Heap V) (hd : data.arr < h.length)
    (hwf : data.off + data.len ≤ (Heap.array h data.arr).length) :
    FilterH grow (fun x mem => (p x, mem)) data h
      = (⟨false, h.length + 1, 0,
            (Filter grow p ⟨data.isNil, Heap.view h data, data.cap⟩).len,
            (Filter grow p ⟨data.isNil, Heap.view h data, data.cap⟩).cap⟩,
          h ++ [(Filter.buffer grow p ⟨data.isNil, Heap.view h data, data.cap⟩).elems
                  ++ List.replicate (data.len
                      - (Filter grow p ⟨data.isNil, Heap.view h data, data.cap⟩).len) default,
                (Filter grow p ⟨data.isNil, Heap.view h data, data.cap⟩).elems]) := by
  have hL := FilterH_loop_pure grow p data h hd hwf data.len 0 (by omega) [] (Nat.le_refl _)
  simp only [← List.range_eq_range', List.drop_zero, List.nil_append, List.length_nil,
    Nat.sub_zero] at hL
  rw [Filter_eq, Filter_buffer_eq]
  generalize hKdef : (Heap.view h data).filter p = K at hL
  have hcopy := copy_into_fresh
    (h ++ [K ++ List.replicate (data.len - K.length) default]) K
    (List.replicate (data.len - K.length) default) h.length data.len
    (by simp) (array_append_self h _)
  have hF : FilterH grow (fun x mem => (p x, mem)) data h
      = (((h ++ [K ++ List.replicate (data.len - K.length) default]).make K.length K.length).1,
          ((h ++ [K ++ List.replicate (data.len - K.length) default]).make K.length K.length).2.copy
            ((h ++ [K ++ List.replicate (data.len - K.length) default]).make K.length K.length).1
            ⟨false, h.length, 0, K.length, data.len⟩) := by
    unfold FilterH
    simp only [Heap.make, hL]
  rw [hF, hcopy]
  simp [Heap.make, Slice.len]

/-- C11: none of `Map`, `Reduce` and `Filter` mutates its input.  On the memory
model, for an input slice whose backing array is allocated and callbacks that do
not themselves write to that array (they may read memory, write elsewhere and
allocate): after the call the input slice shows the same elements as before, and its
whole backing array is unchanged; for `Filter` this already holds when the loop ends,
so its appends never write to the input's storage; and the slices `Map` and `Filter`
return lie in another array than the input.  (The header of the input is passed by
value, so its length cannot change.) -/
theorem operations_do_not_mutate_input {V A : Type} [Inhabited V] (grow : Nat → Nat → Nat)
    (data : SliceH) (h : Heap V) (init : A)
    (fnM : V → Heap V → V × Heap V) (fnR : A → V → Heap V → A × Heap V)
    (fnF : V → Heap V → Bool × Heap V)
    (hd : data.arr < h.length)
    (hM : ∀ x m, data.arr < m.length →
      m.length ≤ (fnM x m).2.length ∧
        Heap.array (fnM x m).2 data.arr = Heap.array m data.arr)
    (hR : ∀ a x m, data.arr < m.length →
      m.length ≤ (fnR a x m).2.length ∧
        Heap.array (fnR a x m).2 data.arr = Heap.array m data.arr)
    (hF : ∀ x m, data.arr < m.length →
      m.length ≤ (fnF x m).2.length ∧
        Heap.array (fnF x m).2 data.arr = Heap.array m data.arr) :
    (Heap.view (MapH fnM data h).2 data = Heap.view h data ∧
      Heap.view (ReduceH fnR data init h).2 data = Heap.view h data ∧
      Heap.view (FilterH grow fnF data h).2 data = Heap.view h data) ∧
    (Heap.array (MapH fnM data h).2 data.arr = Heap.array h data.arr ∧
      Heap.array (ReduceH fnR data init h).2 data.arr = Heap.array h data.arr ∧
      Heap.array (FilterH grow fnF data h).2 data.arr = Heap.array h data.arr) ∧
    Heap.array (FilterH.loop grow fnF data (List.range data.len)
      (h.make 0 data.len).1 (h.make 0 data.len).2).2 data.arr = Heap.array h data.arr ∧
    ((MapH fnM data h).1.arr ≠ data.arr ∧ (FilterH grow fnF data h).1.arr ≠ data.arr) := by
  have h1 := MapH_frame fnM data h data.arr hd hM
  have h2 := (ReduceH_loop_frame fnR data data.arr hR (List.range data.len) init h hd).2
  have h3 := FilterH_frame grow fnF data h data.arr hd hF
  exact ⟨⟨view_congr _ _ _ h1, view_congr _ _ _ h2, view_congr _ _ _ h3.2.1⟩,
    ⟨h1, h2, h3.2.1⟩, h3.1, (make_frame h data.len data.len data.arr hd).1, h3.2.2⟩

/-- C11 on the memory `[[10, 20, 30, 40, 50], [7]]` with the input `a[1:4]` of the
first array (elements `[20, 30, 40]`, one spare cell of capacity), and callbacks that
allocate a one-element array at each call: after each operation the input array is
`[10, 20, 30, 40, 50]` as before, while the results are `[21, 31, 41]`, `90` and
`[30, 40]`. -/
theorem operations_do_not_mutate_input_witness :
    (Heap.view (MapH (fun (x : Int) m => (x + 1, m ++ [[x]])) ⟨false, 0, 1, 3, 4⟩
        [[10, 20, 30, 40, 50], [7]]).2 ⟨false, 0, 1, 3, 4⟩ = [20, 30, 40] ∧
      Heap.view (ReduceH (fun (a x : Int) m => (a + x, m ++ [[x]])) ⟨false, 0, 1, 3, 4⟩ 0
        [[10, 20, 30, 40, 50], [7]]).2 ⟨false, 0, 1, 3, 4⟩ = [20, 30, 40] ∧
      Heap.view (FilterH (fun _ n => n) (fun (x : Int) m => (decide (x > 25), m ++ [[x]]))
        ⟨false, 0, 1, 3, 4⟩ [[10, 20, 30, 40, 50], [7]]).2 ⟨false, 0, 1, 3, 4⟩
          = [20, 30, 40]) ∧
    Heap.array (FilterH (fun _ n => n) (fun (x : Int) m => (decide (x > 25), m ++ [[x]]))
        ⟨false, 0, 1, 3, 4⟩ [[10, 20, 30, 40, 50], [7]]).2 0 = [10, 20, 30, 40, 50] ∧
    Heap.view (MapH (fun (x : Int) m => (x + 1, m ++ [[x]])) ⟨false, 0, 1, 3, 4⟩
        [[10, 20, 30, 40, 50], [7]]).2
      (MapH (fun (x : Int) m => (x + 1, m ++ [[x]])) ⟨false, 0, 1, 3, 4⟩
        [[10, 20, 30, 40, 50], [7]]).1 = [21, 31, 41] ∧
    (ReduceH (fun (a x : Int) m => (a + x, m ++ [[x]])) ⟨false, 0, 1, 3, 4⟩ 0
        [[10, 20, 30, 40, 50], [7]]).1 = 90 ∧
    Heap.view (FilterH (fun _ n => n) (fun (x : Int) m => (decide (x > 25), m ++ [[x]]))
        ⟨false, 0, 1, 3, 4⟩ [[10, 20, 30, 40, 50], [7]]).2
      (FilterH (fun _ n => n) (fun (x : Int) m => (decide (x > 25), m ++ [[x]]))
        ⟨false, 0, 1, 3, 4⟩ [[10, 20, 30, 40, 50], [7]]).1 = [30, 40] := by
  have hspare : ∀ (x : Int) (m : Heap Int), 0 < m.length →
      m.length ≤ (m ++ [[x]]).length ∧ Heap.array (m ++ [[x]]) 0 = Heap.array m 0 :=
    fun x m hm => ⟨by simp, array_append_lt m 0 [x] hm⟩
  have h := operations_do_not_mutate_input (fun _ n => n) ⟨false, 0, 1, 3, 4⟩
    [[10, 20, 30, 40, 50], [7]] (0 : Int)
    (fun (x : Int) m => (x + 1, m ++ [[x]]))
    (fun (a x : Int) m => (a + x, m ++ [[x]]))
    (fun (x : Int) m => (decide (x > 25), m ++ [[x]]))
    (by decide) (fun x m hm => hspare x m hm) (fun _ x m hm => hspare x m hm)
    (fun x m hm => hspare x m hm)
  exact ⟨h.1, h.2.1.2.2, by decide, by decide, by decide⟩

end Fun
